import Mathlib

/-!
Verification of the documentation-reconciliation core of defg (src/defg.js):
block extraction markers, the special-line classifier, the permutation
search with lockstep alignment and early abort, the diff merge, and the
final persistence step.  Lines are Lean Strings; JS arrays are Lists;
the mutable search state (min.dist, min.data) is threaded explicitly.
-/

/-- JS String.prototype.trim whitespace (the characters relevant here). -/
def jsWs (c : Char) : Bool :=
  c = ' ' || c = '\t' || c = '\n' || c = '\r' || c = '\x0b' || c = '\x0c'

/-- Trim leading and trailing whitespace from a character list. -/
def trimChars (l : List Char) : List Char :=
  ((l.dropWhile jsWs).reverse.dropWhile jsWs).reverse

/-- Model of JS .trim() as used throughout defg.js. -/
def jsTrim (s : String) : String :=
  String.mk (trimChars s.data)

/-- Splitter for readme.split over carriage returns and newlines (defg.js line 201). -/
def splitLinesAux : List Char → List Char → List (List Char)
  | [], acc => [acc.reverse]
  | c :: cs, acc =>
    if c = '\n' ∨ c = '\r' then acc.reverse :: splitLinesAux cs []
    else splitLinesAux cs (c :: acc)

/-- readme.split of defg.js line 201: split a string into lines at every CR or LF. -/
def splitNl (s : String) : List String :=
  (splitLinesAux s.data []).map String.mk

/-- Space or tab: the leading whitespace class of the isSplLine regexes. -/
def isWsA (c : Char) : Bool := c = ' ' || c = '\t'

/-- Space, tab or newline: the trailing whitespace class of the isSplLine regexes. -/
def isWsB (c : Char) : Bool := c = ' ' || c = '\t' || c = '\n'

/-- Characters matched by the JS regex dot (anything but a line terminator). -/
def isDotChar (c : Char) : Bool :=
  !(c = '\n' || c = '\r' || c = Char.ofNat 0x2028 || c = Char.ofNat 0x2029)

/-- Matcher for the closing-paren part of the image regex of defg.js line 281:
zero or more non-paren characters, a closing paren, then trailing whitespace. -/
def afterParen : List Char → Bool
  | [] => false
  | c :: cs => if c = ')' then cs.all isWsB else afterParen cs

/-- Head test for an opening paren followed by afterParen. -/
def headParen : List Char → Bool
  | [] => false
  | p :: cs => p = '(' && afterParen cs

/-- Matcher for the part of the image regex after the opening bang-bracket:
any dot characters, a closing bracket, an opening paren, and afterParen. -/
def imgTail : List Char → Bool
  | [] => false
  | c :: cs => (c = ']' && headParen cs) || (isDotChar c && imgTail cs)

/-- The first isSplLine regex of defg.js line 281: a whole line that is an
image reference in bracket-paren form, optionally surrounded by whitespace. -/
def matchImg (l : List Char) : Bool :=
  match l.dropWhile isWsA with
  | a :: b :: rest => a = '!' && b = '[' && imgTail rest
  | _ => false

/-- Matcher for the part of the tag regex after the opening angle of
defg.js line 281: any dot characters, a closing angle, then whitespace. -/
def tagTail : List Char → Bool
  | [] => false
  | c :: cs => (c = '>' && cs.all isWsB) || (isDotChar c && tagTail cs)

/-- The second isSplLine regex of defg.js line 281: a whole line opening with
an angle bracket and closing with one, optionally surrounded by whitespace. -/
def matchTag (l : List Char) : Bool :=
  match l.dropWhile isWsA with
  | a :: rest => a = '<' && tagTail rest
  | _ => false

/-- isSplLine of defg.js lines 280-282: a line is special when it matches
the image-reference regex or the markup-tag regex. -/
def isSplLine (l : String) : Bool :=
  matchImg l.data || matchTag l.data

/-- One entry of the diff handed to saveReadme: the flags checked by
defg.js lines 443-453 plus the text payload. -/
structure DiffPart where
  fresh : Bool
  added : Bool
  removed : Bool
  value : String
deriving DecidableEq

/-- A diff entry carrying an unchanged chunk. -/
def unchangedPart (v : String) : DiffPart := ⟨false, false, false, v⟩

/-- A diff entry carrying an added chunk. -/
def addedPart (v : String) : DiffPart := ⟨false, true, false, v⟩

/-- A diff entry carrying a removed chunk. -/
def removedPart (v : String) : DiffPart := ⟨false, false, true, v⟩

/-- asDiff of defg.js lines 179-188: with no prior readme every block line
becomes a fresh, newline-terminated diff entry, blocks in extraction order. -/
def asDiff (docblocks : List (List String)) : List DiffPart :=
  docblocks.flatMap (fun block => block.map (fun v => ⟨true, false, false, v ++ "\n"⟩))

/-- The accumulation loop of saveReadme, defg.js lines 440-455: fresh entries
are kept, removed entries are skipped, added and unchanged entries are kept. -/
def saveLoop : List DiffPart → List String
  | [] => []
  | p :: ps =>
    if p.fresh = true then p.value :: saveLoop ps
    else if p.removed = true then saveLoop ps
    else if p.added = true then p.value :: saveLoop ps
    else p.value :: saveLoop ps

/-- saveReadme of defg.js lines 439-461 (the persisted text): concatenate the
kept values and trim the result (line 456). -/
def saveReadme (diff : List DiffPart) : String :=
  jsTrim (String.join (saveLoop diff))

/-- Tokenizer splitting a text into lines that keep their terminating
newline, as the line diff of the external diff library does. -/
def lineTokensAux : List Char → List Char → List String
  | [], acc => if acc.isEmpty then [] else [String.mk acc.reverse]
  | c :: cs, acc =>
    if c = '\n' then String.mk (acc.reverse ++ ['\n']) :: lineTokensAux cs []
    else lineTokensAux cs (c :: acc)

/-- Line tokens of a text (each token keeps its newline, a last unterminated
line forms a final token). -/
def lineTokens (s : String) : List String :=
  lineTokensAux s.data []

/-- Modelled from the spec: Diff.diffLines of the external diff library
(defg.js line 207) is not part of this repository.  This model is a
line-level diff classifying every token as unchanged, added or removed such
that the non-removed entries concatenate to the new text and the non-added
entries concatenate to the old text, and equal texts yield only unchanged
entries - the contract the merge step relies on. -/
def diffToks : List String → List String → List DiffPart
  | [], ys => ys.map addedPart
  | x :: xs, [] => removedPart x :: diffToks xs []
  | x :: xs, y :: ys =>
    if x = y then unchangedPart x :: diffToks xs ys
    else removedPart x :: diffToks xs (y :: ys)

/-- Modelled from the spec: the external Diff.diffLines applied to the old
and new document texts (see diffToks). -/
def diffLines (oldText newText : String) : List DiffPart :=
  diffToks (lineTokens oldText) (lineTokens newText)

/-- The lookahead scan of find_min_1, defg.js lines 252-266: for offsets i
from the given start while steps remain, report the first i at which the
current readme line d reappears in the readme side (flag true, cursor nr
advances) or the current data line r reappears in the data side (flag
false, cursor nd advances); here ds and rs are the suffixes of data and
rlines from the current cursors, d = ds.head and r = rs.head. -/
def lookFrom (d r : String) (ds rs : List String) : Nat → Nat → Option (Nat × Bool)
  | _, 0 => none
  | i, steps + 1 =>
    if rs.get? i = some d then some (i, true)
    else if ds.get? i = some r then some (i, false)
    else lookFrom d r ds rs (i + 1) steps

/-- The early-abort test of defg.js line 272: a known best distance is
exceeded by the accumulated distance. -/
def exceeds (bound : Option Nat) (dist : Nat) : Bool :=
  match bound with
  | none => false
  | some b => decide (b < dist)

/-- The while loop of find_min_1, defg.js lines 233-273, with explicit fuel
(one unit per iteration; the supplied fuel below always suffices).  out is
the processed prefix of the spliced data array, ds and rs the unprocessed
suffixes of data and rlines from the cursors nd and nr, dist the
accumulated distance and bound the current best distance (min.dist).  The
result is none exactly when line 272 returns early, otherwise the final
distance together with the full spliced data array (out plus the leftover
ds, as the loop leaves data when a cursor is exhausted). -/
def alignLoopF : Nat → List String → List String → List String → Nat → Option Nat → Option (Nat × List String)
  | _, out, [], _, dist, _ => some (dist, out)
  | _, out, d :: ds, [], dist, _ => some (dist, out ++ d :: ds)
  | 0, out, d :: ds, _ :: _, dist, _ => some (dist, out ++ d :: ds)
  | fuel + 1, out, d :: ds, r :: rs, dist, bound =>
    if d = r then
      alignLoopF fuel (out ++ [d]) ds rs dist bound
    else if d = "" ∨ isSplLine d = true then
      alignLoopF fuel (out ++ [d]) ds (r :: rs) dist bound
    else if r = "" ∨ isSplLine r = true then
      alignLoopF fuel (out ++ [r]) (d :: ds) rs dist bound
    else
      match lookFrom d r (d :: ds) (r :: rs) 1 6 with
      | some (i, true) =>
        if exceeds bound (dist + i) then none
        else alignLoopF fuel (out ++ [d]) ds ((r :: rs).drop (i + 1)) (dist + i) bound
      | some (i, false) =>
        if exceeds bound (dist + i) then none
        else alignLoopF fuel (out ++ (d :: ds).take (i + 1)) ((d :: ds).drop (i + 1)) rs (dist + i) bound
      | none =>
        if exceeds bound (dist + 2) then none
        else alignLoopF fuel (out ++ [d]) ds rs (dist + 2) bound

/-- One full scoring run of find_min_1 on a flattened candidate: the loop
starting with both cursors at zero and distance zero, with enough fuel. -/
def alignRun (ds rs : List String) (bound : Option Nat) : Option (Nat × List String) :=
  alignLoopF (ds.length + rs.length) [] ds rs 0 bound

/-- find_min_1 of defg.js lines 227-277 as a state transformer on the
search state (min.dist, min.data): score the candidate against the current
best distance; an early abort leaves the state unchanged, a completed run
overwrites it (defg.js lines 274-276) - even on an equal distance. -/
def find_min_1 (flat rlines : List String) (mn : Option (Nat × List String)) : Option (Nat × List String) :=
  match alignRun flat rlines (mn.map (fun p => p.1)) with
  | none => mn
  | some res => some res

/-- The choose-next-unused step of gen_1, defg.js lines 211-221: the ways of
removing one element, in index order, each with the remaining list. -/
def pick {α : Type} : List α → List (α × List α)
  | [] => []
  | x :: xs => (x, xs) :: (pick xs).map (fun p => (p.1, x :: p.2))

/-- All permutations in the order gen_1 generates them (lexicographic in
block-index order), with fuel equal to the list length. -/
def permsF {α : Type} : Nat → List α → List (List α)
  | _, [] => [[]]
  | 0, _ :: _ => [[]]
  | fuel + 1, x :: xs =>
    (pick (x :: xs)).flatMap (fun p => (permsF fuel p.2).map (fun q => p.1 :: q))

/-- The permutations of the docblocks in the order gen_1 visits them. -/
def perms {α : Type} (l : List α) : List (List α) :=
  permsF l.length l

/-- The search of regen_readme: fold find_min_1 over the candidate
flattened orderings, starting from the empty state (min.dist = null). -/
def searchFold (cands : List (List String)) (rlines : List String) : Option (Nat × List String) :=
  cands.foldl (fun mn c => find_min_1 c rlines mn) none

/-- gen_1(find_min_1) of defg.js line 204: the winning (distance, data)
after scoring every ordering of the docblocks against the readme lines. -/
def regenMin (docblocks : List (List String)) (rlines : List String) : Option (Nat × List String) :=
  searchFold ((perms docblocks).map (fun p => p.flatten)) rlines

/-- regen_readme of defg.js lines 195-209: run the search on the readme
lines, join and trim the winning data (line 206), diff it against the
readme (line 207) and persist through saveReadme (line 209). -/
def regen_readme (readme : String) (docblocks : List (List String)) : Option String :=
  (regenMin docblocks (splitNl readme)).map
    (fun res => saveReadme (diffLines readme (jsTrim (String.intercalate "\n" res.2))))

/-- The characters opening a documentation marker (slash or hash). -/
def isMarkerChar (c : Char) : Bool := c = '/' || c = '#'

/-- Head test for the marker-plus-space pattern of the second regex of
xtract_doc_comment_1 (defg.js line 433): two marker characters, two stars
and a space; on success the rest of the line is returned. -/
def markerAt : List Char → Option (List Char)
  | c1 :: c2 :: s1 :: s2 :: sp :: tail =>
    if isMarkerChar c1 && isMarkerChar c2 && s1 = '*' && s2 = '*' && sp = ' '
    then some tail else none
  | _ => none

/-- Leftmost match of the marker-plus-space pattern: scan left to right and
return the text after the first occurrence, as the JS regex engine does. -/
def findMarkerPayload : List Char → Option (List Char)
  | [] => none
  | c :: cs =>
    match markerAt (c :: cs) with
    | some t => some t
    | none => findMarkerPayload cs

/-- Whether a position in the line starts the marker-plus-space pattern. -/
def containsMarkerSpace : List Char → Bool
  | [] => false
  | c :: cs => (markerAt (c :: cs)).isSome || containsMarkerSpace cs

/-- The first regex of xtract_doc_comment_1 (defg.js line 431): the line
ends with two marker characters and two stars, optionally followed by one
space (the JS dollar anchors at the very end of the string). -/
def endsWithMarker (l : List Char) : Bool :=
  (match l.reverse with
   | a :: b :: c2 :: c1 :: _ =>
     a = '*' && b = '*' && isMarkerChar c1 && isMarkerChar c2
   | _ => false)
  ||
  (match l.reverse with
   | a :: b :: e :: c2 :: c1 :: _ =>
     a = ' ' && b = '*' && e = '*' && isMarkerChar c1 && isMarkerChar c2
   | _ => false)

/-- xtract_doc_comment_1 of defg.js lines 429-436 on the characters of a
line: a line ending in a bare marker yields the empty payload, otherwise
the text after the first marker-plus-space occurrence is the payload (the
JS dot stops the captured group at a line terminator), otherwise the line
is not a documentation line. -/
def xtract_doc_comment_1 (l : List Char) : Option (List Char) :=
  if endsWithMarker l = true then some []
  else (findMarkerPayload l).map (fun t => t.takeWhile isDotChar)

/-- The kept values of a diff whose fresh entries are never marked removed
are exactly the values of its non-removed entries, in diff order. -/
theorem saveLoop_eq_filter (parts : List DiffPart)
    (h : ∀ p ∈ parts, p.fresh = true → p.removed = false) :
    saveLoop parts = (parts.filter (fun p => !p.removed)).map (fun p => p.value) := by
  induction parts with
  | nil => rfl
  | cons p ps ih =>
    have hp := h p (by simp)
    have hps : ∀ q ∈ ps, q.fresh = true → q.removed = false := by
      intro q hq
      exact h q (by simp [hq])
    by_cases hf : p.fresh = true
    · have hr : p.removed = false := hp hf
      simp [saveLoop, hf, hr, ih hps]
    · by_cases hr : p.removed = true
      · simp [saveLoop, hf, hr, ih hps]
      · have hr2 : p.removed = false := by
          cases hx : p.removed
          · rfl
          · exact absurd hx hr
        by_cases ha : p.added = true
        · simp [saveLoop, hf, hr2, ha, ih hps]
        · simp [saveLoop, hf, hr2, ha, ih hps]

/-- The kept values of an all-fresh diff are all its values, in order. -/
theorem saveLoop_fresh (parts : List DiffPart)
    (h : ∀ p ∈ parts, p.fresh = true) :
    saveLoop parts = parts.map (fun p => p.value) := by
  induction parts with
  | nil => rfl
  | cons p ps ih =>
    have hp := h p (by simp)
    have hps : ∀ q ∈ ps, q.fresh = true := by
      intro q hq
      exact h q (by simp [hq])
    simp [saveLoop, hp, ih hps]

/-- Every entry asDiff builds is fresh and not removed. -/
theorem asDiff_fresh (docblocks : List (List String)) :
    ∀ p ∈ asDiff docblocks, p.fresh = true ∧ p.removed = false := by
  intro p hp
  simp only [asDiff, List.mem_flatMap, List.mem_map] at hp
  obtain ⟨b, _, v, _, hv⟩ := hp
  subst hv
  exact ⟨rfl, rfl⟩

/-- The values of the fresh entries built by asDiff are the block lines in
extraction order, each newline-terminated. -/
theorem asDiff_map_value (docblocks : List (List String)) :
    (asDiff docblocks).map (fun p => p.value)
      = docblocks.flatten.map (fun l => l ++ "\n") := by
  induction docblocks with
  | nil => rfl
  | cons b bs ih =>
    simp [asDiff] at ih ⊢
    simp [List.map_map, Function.comp, ih]

/-- Claim C9: in the diff merge of saveReadme (defg.js lines 439-461),
every entry classified removed is dropped and contributes nothing to the
persisted document, while unchanged, added and fresh entries are kept in
their diff order and concatenated, the resulting text being trimmed of
surrounding whitespace.  (The hypothesis records that a fresh entry is
never also flagged removed, as holds for every diff the program builds.) -/
theorem C9_removed_dropped (parts : List DiffPart)
    (h : ∀ p ∈ parts, p.fresh = true → p.removed = false) :
    saveReadme parts
      = jsTrim (String.join ((parts.filter (fun p => !p.removed)).map (fun p => p.value))) := by
  unfold saveReadme
  rw [saveLoop_eq_filter parts h]

/-- Witness for C9 at a concrete diff containing all four classifications. -/
theorem C9_witness :
    saveReadme [unchangedPart "u\n", removedPart "r\n", addedPart "a\n",
        DiffPart.mk true false false "f\n"]
      = jsTrim (String.join (([unchangedPart "u\n", removedPart "r\n", addedPart "a\n",
          DiffPart.mk true false false "f\n"].filter (fun p => !p.removed)).map (fun p => p.value))) :=
  C9_removed_dropped _ (by decide)

/-- Counterexample to claim C2: an empty but present document is not null,
so main (defg.js line 171) takes the regen_readme branch, the alignment
search runs, and for the blocks a and b the second ordering also completes
with distance zero and overwrites the first, so the persisted text is b
then a - not the blocks concatenated in extraction order. -/
theorem C2_counterexample :
    regen_readme "" [["a"], ["b"]] = some "b\na" ∧ ("b\na" : String) ≠ "a\nb" := by
  constructor
  · decide
  · decide

/-- Claim C2 as amended: if the document is absent (readme null), no
alignment search is performed - asDiff plus saveReadme persist the blocks'
lines in original extraction order, each newline-terminated, concatenated
and trimmed of surrounding whitespace, every entry classified fresh; in
particular blocks a,a and b yield exactly the three lines a, a, b.  (An
empty but present document instead triggers the search, see the
counterexample.) -/
theorem C2_first_generation (docblocks : List (List String)) :
    saveReadme (asDiff docblocks)
        = jsTrim (String.join (docblocks.flatten.map (fun l => l ++ "\n")))
      ∧ (∀ p ∈ asDiff docblocks, p.fresh = true)
      ∧ saveReadme (asDiff [["a", "a"], ["b"]]) = "a\na\nb" := by
  refine ⟨?_, ?_, by decide⟩
  · unfold saveReadme
    rw [saveLoop_fresh (asDiff docblocks) (fun p hp => (asDiff_fresh docblocks p hp).1)]
    rw [asDiff_map_value]
  · intro p hp
    exact (asDiff_fresh docblocks p hp).1

/-- Witness for C2 at the concrete blocks of the claim. -/
theorem C2_witness :
    saveReadme (asDiff [["a", "a"], ["b"]]) = "a\na\nb"
      ∧ (DiffPart.mk true false false "a\n").fresh = true :=
  ⟨(C2_first_generation [["a", "a"], ["b"]]).2.2,
   (C2_first_generation [["a", "a"], ["b"]]).2.1 ⟨true, false, false, "a\n"⟩ (by decide)⟩

/-- A marker character is neither a star nor a space. -/
theorem markerChar_ne {c : Char} (h : isMarkerChar c = true) : c ≠ '*' ∧ c ≠ ' ' := by
  unfold isMarkerChar at h
  rcases Bool.or_eq_true _ _ |>.mp h with h1 | h1
  · have : c = '/' := by simpa using h1
    subst this
    exact ⟨by decide, by decide⟩
  · have : c = '#' := by simpa using h1
    subst this
    exact ⟨by decide, by decide⟩

/-- markerAt succeeds exactly on lists starting with the five-character
marker-plus-space pattern, returning the text after it. -/
theorem markerAt_eq_some {l t : List Char} :
    markerAt l = some t
      ↔ ∃ c1 c2, isMarkerChar c1 = true ∧ isMarkerChar c2 = true
          ∧ l = c1 :: c2 :: '*' :: '*' :: ' ' :: t := by
  constructor
  · intro h
    unfold markerAt at h
    split at h
    · rename_i c1 c2 s1 s2 sp tail
      split at h
      · rename_i hcond
        simp only [Bool.and_eq_true, decide_eq_true_eq] at hcond
        obtain ⟨⟨⟨⟨h1, h2⟩, h3⟩, h4⟩, h5⟩ := hcond
        refine ⟨c1, c2, h1, h2, ?_⟩
        cases h
        rw [h3, h4, h5]
      · cases h
    · cases h
  · rintro ⟨c1, c2, h1, h2, rfl⟩
    simp [markerAt, h1, h2]

/-- A list containing the marker-plus-space pattern anywhere has a
findMarkerPayload match. -/
theorem findMarkerPayload_ne_none (pre rest : List Char) (c1 c2 : Char)
    (h1 : isMarkerChar c1 = true) (h2 : isMarkerChar c2 = true) :
    findMarkerPayload (pre ++ c1 :: c2 :: '*' :: '*' :: ' ' :: rest) ≠ none := by
  induction pre with
  | nil =>
    have hma : markerAt (c1 :: c2 :: '*' :: '*' :: ' ' :: rest) = some rest :=
      markerAt_eq_some.mpr ⟨c1, c2, h1, h2, rfl⟩
    simp [findMarkerPayload, hma]
  | cons c pre ih =>
    rw [List.cons_append]
    cases hma : markerAt (c :: (pre ++ c1 :: c2 :: '*' :: '*' :: ' ' :: rest)) with
    | some t => simp [findMarkerPayload, hma]
    | none => simpa [findMarkerPayload, hma] using ih

/-- If no position of pre starts the marker-plus-space pattern, then the
first occurrence in pre followed by a marker line is the explicit one, and
findMarkerPayload returns the text after it. -/
theorem findMarkerPayload_leftmost (pre rest : List Char) (c1 c2 : Char)
    (h1 : isMarkerChar c1 = true) (h2 : isMarkerChar c2 = true)
    (hpre : containsMarkerSpace pre = false) :
    findMarkerPayload (pre ++ c1 :: c2 :: '*' :: '*' :: ' ' :: rest) = some rest := by
  induction pre with
  | nil =>
    have hma : markerAt (c1 :: c2 :: '*' :: '*' :: ' ' :: rest) = some rest :=
      markerAt_eq_some.mpr ⟨c1, c2, h1, h2, rfl⟩
    simp [findMarkerPayload, hma]
  | cons c pre ih =>
    have hsplit : (markerAt (c :: pre)).isSome = false ∧ containsMarkerSpace pre = false := by
      simpa [containsMarkerSpace, Bool.or_eq_false_iff] using hpre
    have hnone : markerAt (c :: (pre ++ c1 :: c2 :: '*' :: '*' :: ' ' :: rest)) = none := by
      cases hma : markerAt (c :: (pre ++ c1 :: c2 :: '*' :: '*' :: ' ' :: rest)) with
      | none => rfl
      | some t =>
        exfalso
        obtain ⟨d1, d2, hd1, hd2, heq⟩ := markerAt_eq_some.mp hma
        match pre, heq with
        | [], heq =>
          simp only [List.nil_append, List.cons.injEq] at heq
          exact (markerChar_ne h2).1 heq.2.2.1
        | [a], heq =>
          simp only [List.cons_append, List.nil_append, List.cons.injEq] at heq
          exact (markerChar_ne h1).1 heq.2.2.1
        | [a, b], heq =>
          simp only [List.cons_append, List.nil_append, List.cons.injEq] at heq
          exact (markerChar_ne h1).1 heq.2.2.2.1
        | [a, b, e], heq =>
          simp only [List.cons_append, List.nil_append, List.cons.injEq] at heq
          exact (markerChar_ne h1).2 heq.2.2.2.2.1
        | a :: b :: e :: f :: pre5, heq =>
          simp only [List.cons_append, List.cons.injEq] at heq
          have hma2 : markerAt (c :: a :: b :: e :: f :: pre5) = some pre5 := by
            apply markerAt_eq_some.mpr
            refine ⟨d1, d2, hd1, hd2, ?_⟩
            rw [heq.1, heq.2.1, heq.2.2.1, heq.2.2.2.1, heq.2.2.2.2.1]
          rw [hma2] at hsplit
          exact absurd hsplit.1 (by simp)
    rw [List.cons_append]
    simp only [findMarkerPayload, hnone]
    exact ih hsplit.2

/-- A line ending in the bare four-character marker matches the first
alternative of the end-of-line marker regex. -/
theorem endsWithMarker_bare (pre : List Char) (c1 c2 : Char)
    (h1 : isMarkerChar c1 = true) (h2 : isMarkerChar c2 = true) :
    endsWithMarker (pre ++ [c1, c2, '*', '*']) = true := by
  unfold endsWithMarker
  rw [List.reverse_append]
  simp [h1, h2]

/-- A line ending in the marker followed by one space matches the second
alternative of the end-of-line marker regex. -/
theorem endsWithMarker_space (pre : List Char) (c1 c2 : Char)
    (h1 : isMarkerChar c1 = true) (h2 : isMarkerChar c2 = true) :
    endsWithMarker (pre ++ [c1, c2, '*', '*', ' ']) = true := by
  unfold endsWithMarker
  rw [List.reverse_append]
  simp [h1, h2]

/-- A list all of whose members satisfy the predicate is its own takeWhile. -/
theorem takeWhile_all {l : List Char} {p : Char → Bool}
    (h : ∀ c ∈ l, p c = true) : l.takeWhile p = l := by
  induction l with
  | nil => rfl
  | cons c cs ih =>
    have hc := h c (by simp)
    rw [List.takeWhile_cons, hc]
    simp only [if_true]
    rw [ih (fun x hx => h x (by simp [hx]))]

/-- Claim C10: xtract_doc_comment_1 (defg.js lines 429-436) classifies a
line as documentation whenever the marker pattern occurs anywhere in it,
not only at its start, the two comment characters being any mix of slash
and hash; the payload is the text after the first marker and its one
separating space; and a marker with nothing, or only one space, after it
(at the end of the line) yields the empty payload. -/
theorem C10_marker_extraction (pre rest : List Char) (c1 c2 : Char)
    (h1 : isMarkerChar c1 = true) (h2 : isMarkerChar c2 = true) :
    xtract_doc_comment_1 (pre ++ c1 :: c2 :: '*' :: '*' :: ' ' :: rest) ≠ none
    ∧ xtract_doc_comment_1 (pre ++ [c1, c2, '*', '*']) = some []
    ∧ xtract_doc_comment_1 (pre ++ [c1, c2, '*', '*', ' ']) = some []
    ∧ (containsMarkerSpace pre = false →
       endsWithMarker (pre ++ c1 :: c2 :: '*' :: '*' :: ' ' :: rest) = false →
       (∀ c ∈ rest, isDotChar c = true) →
       xtract_doc_comment_1 (pre ++ c1 :: c2 :: '*' :: '*' :: ' ' :: rest) = some rest) := by
  refine ⟨?_, ?_, ?_, ?_⟩
  · by_cases he : endsWithMarker (pre ++ c1 :: c2 :: '*' :: '*' :: ' ' :: rest) = true
    · simp [xtract_doc_comment_1, he]
    · unfold xtract_doc_comment_1
      rw [if_neg he]
      cases hfp : findMarkerPayload (pre ++ c1 :: c2 :: '*' :: '*' :: ' ' :: rest) with
      | none => exact absurd hfp (findMarkerPayload_ne_none pre rest c1 c2 h1 h2)
      | some t => simp [hfp]
  · simp [xtract_doc_comment_1, endsWithMarker_bare pre c1 c2 h1 h2]
  · simp [xtract_doc_comment_1, endsWithMarker_space pre c1 c2 h1 h2]
  · intro hpre hend hdot
    unfold xtract_doc_comment_1
    rw [if_neg (by simp [hend])]
    rw [findMarkerPayload_leftmost pre rest c1 c2 h1 h2 hpre]
    simp [takeWhile_all hdot]

/-- Witness for C10: a mid-line mixed marker yields the payload after it,
and a line ending in a bare mixed marker yields the empty payload. -/
theorem C10_witness :
    xtract_doc_comment_1 (['x', ' '] ++ '/' :: '#' :: '*' :: '*' :: ' ' :: ['h', 'i'])
        = some ['h', 'i']
    ∧ xtract_doc_comment_1 (['y'] ++ ['#', '/', '*', '*']) = some [] :=
  ⟨(C10_marker_extraction ['x', ' '] ['h', 'i'] '/' '#' (by decide) (by decide)).2.2.2
      (by decide) (by decide) (by decide),
   (C10_marker_extraction ['y'] [] '#' '/' (by decide) (by decide)).2.1⟩

/-- Modelled from the spec: a single markup tag is an opening angle
bracket, a body free of closing angle brackets (the tag ends at its first
closing bracket) and that closing bracket; the spec classifier accepts a
line that is only such a tag, or is only an image reference, optionally
surrounded by whitespace. -/
def specSingleTag (l : List Char) : Bool :=
  match l.dropWhile isWsA with
  | [] => false
  | a :: rest =>
    a = '<' &&
      (match rest.dropWhile (fun c => !(c = '>')) with
       | [] => false
       | g :: tail => g = '>' && tail.all isWsB)

/-- Modelled from the spec: the special-line classifier as worded in
section 4.2 - only an image reference, or only one single markup tag,
optionally surrounded by whitespace. -/
def specIsSplLine (s : String) : Bool :=
  matchImg s.data || specSingleTag s.data

/-- The declarative shape of the image-reference regex: leading space-tab
whitespace, a bang and bracket, any non-terminator characters, a closing
bracket and opening paren, non-paren characters, a closing paren, trailing
space-tab-newline whitespace. -/
def ImgShape (l : List Char) : Prop :=
  ∃ w1 a b w2,
    l = w1 ++ ('!' :: '[' :: (a ++ (']' :: '(' :: (b ++ ')' :: w2))))
    ∧ (∀ c ∈ w1, isWsA c = true) ∧ (∀ c ∈ a, isDotChar c = true)
    ∧ (∀ c ∈ b, c ≠ ')') ∧ (∀ c ∈ w2, isWsB c = true)

/-- The declarative shape of the markup-tag regex: leading space-tab
whitespace, an opening angle, any non-terminator characters, a closing
angle, trailing space-tab-newline whitespace (nothing restricts the
characters between the angles, so several tags fit in one match). -/
def TagShape (l : List Char) : Prop :=
  ∃ w1 a w2,
    l = w1 ++ ('<' :: (a ++ '>' :: w2))
    ∧ (∀ c ∈ w1, isWsA c = true) ∧ (∀ c ∈ a, isDotChar c = true)
    ∧ (∀ c ∈ w2, isWsB c = true)

/-- afterParen recognizes exactly the lists made of non-paren characters,
a closing paren and trailing whitespace. -/
theorem afterParen_iff (l : List Char) :
    afterParen l = true
      ↔ ∃ b w2, l = b ++ ')' :: w2 ∧ (∀ c ∈ b, c ≠ ')') ∧ (∀ c ∈ w2, isWsB c = true) := by
  induction l with
  | nil =>
    constructor
    · intro h
      exact absurd h (by simp [afterParen])
    · rintro ⟨b, w2, heq, -, -⟩
      exact absurd heq (by cases b <;> simp)
  | cons c cs ih =>
    by_cases hc : c = ')'
    · subst hc
      constructor
      · intro h
        have h2 : cs.all isWsB = true := by simpa [afterParen] using h
        exact ⟨[], cs, rfl, by simp, List.all_eq_true.mp h2⟩
      · rintro ⟨b, w2, heq, hb, hw⟩
        cases b with
        | nil =>
          simp only [List.nil_append, List.cons.injEq] at heq
          rw [afterParen]
          simp [heq.2, List.all_eq_true.mpr hw]
        | cons x b2 =>
          simp only [List.cons_append, List.cons.injEq] at heq
          exact absurd heq.1.symm (hb x (by simp))
    · constructor
      · intro h
        have h2 : afterParen cs = true := by simpa [afterParen, hc] using h
        obtain ⟨b, w2, heq, hb, hw⟩ := ih.mp h2
        refine ⟨c :: b, w2, by simp [heq], ?_, hw⟩
        intro x hx
        rcases List.mem_cons.mp hx with hx | hx
        · subst hx
          exact hc
        · exact hb x hx
      · rintro ⟨b, w2, heq, hb, hw⟩
        cases b with
        | nil =>
          simp only [List.nil_append, List.cons.injEq] at heq
          exact absurd heq.1 hc
        | cons x b2 =>
          simp only [List.cons_append, List.cons.injEq] at heq
          rw [afterParen]
          simp only [hc, if_false]
          exact ih.mpr ⟨b2, w2, heq.2, fun y hy => hb y (by simp [hy]), hw⟩

/-- tagTail recognizes exactly the lists made of non-terminator
characters, a closing angle and trailing whitespace. -/
theorem tagTail_iff (l : List Char) :
    tagTail l = true
      ↔ ∃ a w2, l = a ++ '>' :: w2 ∧ (∀ c ∈ a, isDotChar c = true) ∧ (∀ c ∈ w2, isWsB c = true) := by
  induction l with
  | nil =>
    constructor
    · intro h
      exact absurd h (by simp [tagTail])
    · rintro ⟨a, w2, heq, -, -⟩
      exact absurd heq (by cases a <;> simp)
  | cons c cs ih =>
    constructor
    · intro h
      simp only [tagTail, Bool.or_eq_true, Bool.and_eq_true, decide_eq_true_eq,
        List.all_eq_true] at h
      rcases h with ⟨hc, hall⟩ | ⟨hdot, htail⟩
      · exact ⟨[], cs, by simp [hc], by simp, hall⟩
      · obtain ⟨a, w2, heq, ha, hw⟩ := ih.mp htail
        refine ⟨c :: a, w2, by simp [heq], ?_, hw⟩
        intro x hx
        rcases List.mem_cons.mp hx with hx | hx
        · subst hx
          exact hdot
        · exact ha x hx
    · rintro ⟨a, w2, heq, ha, hw⟩
      cases a with
      | nil =>
        simp only [List.nil_append, List.cons.injEq] at heq
        simp only [tagTail, Bool.or_eq_true, Bool.and_eq_true, decide_eq_true_eq,
          List.all_eq_true]
        left
        refine ⟨heq.1, ?_⟩
        rw [heq.2]
        exact hw
      | cons x a2 =>
        simp only [List.cons_append, List.cons.injEq] at heq
        simp only [tagTail, Bool.or_eq_true, Bool.and_eq_true, decide_eq_true_eq]
        right
        refine ⟨?_, ih.mpr ⟨a2, w2, heq.2, fun y hy => ha y (by simp [hy]), hw⟩⟩
        rw [heq.1]
        exact ha x (by simp)

/-- imgTail recognizes exactly the lists made of non-terminator
characters, a closing bracket, an opening paren, non-paren characters, a
closing paren and trailing whitespace. -/
theorem imgTail_iff (l : List Char) :
    imgTail l = true
      ↔ ∃ a b w2, l = a ++ (']' :: '(' :: (b ++ ')' :: w2))
          ∧ (∀ c ∈ a, isDotChar c = true) ∧ (∀ c ∈ b, c ≠ ')')
          ∧ (∀ c ∈ w2, isWsB c = true) := by
  induction l with
  | nil =>
    constructor
    · intro h
      exact absurd h (by simp [imgTail])
    · rintro ⟨a, b, w2, heq, -, -, -⟩
      exact absurd heq (by cases a <;> simp)
  | cons c cs ih =>
    constructor
    · intro h
      simp only [imgTail, Bool.or_eq_true, Bool.and_eq_true, decide_eq_true_eq] at h
      rcases h with ⟨hc, hhead⟩ | ⟨hdot, htail⟩
      · cases cs with
        | nil => exact absurd hhead (by simp [headParen])
        | cons p cs2 =>
          have h2 : p = '(' ∧ afterParen cs2 = true := by
            simpa [headParen, Bool.and_eq_true, decide_eq_true_eq] using hhead
          obtain ⟨b, w2, heq2, hb, hw⟩ := (afterParen_iff cs2).mp h2.2
          exact ⟨[], b, w2, by simp [hc, h2.1, heq2], by simp, hb, hw⟩
      · obtain ⟨a, b, w2, heq, ha, hb, hw⟩ := ih.mp htail
        refine ⟨c :: a, b, w2, by simp [heq], ?_, hb, hw⟩
        intro x hx
        rcases List.mem_cons.mp hx with hx | hx
        · subst hx
          exact hdot
        · exact ha x hx
    · rintro ⟨a, b, w2, heq, ha, hb, hw⟩
      cases a with
      | nil =>
        simp only [List.nil_append, List.cons.injEq] at heq
        simp only [imgTail, Bool.or_eq_true, Bool.and_eq_true, decide_eq_true_eq]
        left
        refine ⟨heq.1, ?_⟩
        rw [heq.2]
        simp only [headParen, Bool.and_eq_true, decide_eq_true_eq]
        exact ⟨trivial, (afterParen_iff _).mpr ⟨b, w2, rfl, hb, hw⟩⟩
      | cons x a2 =>
        simp only [List.cons_append, List.cons.injEq] at heq
        simp only [imgTail, Bool.or_eq_true, Bool.and_eq_true, decide_eq_true_eq]
        right
        refine ⟨?_, ih.mpr ⟨a2, b, w2, heq.2, fun y hy => ha y (by simp [hy]), hb, hw⟩⟩
        rw [heq.1]
        exact ha x (by simp)

/-- Members of a takeWhile prefix satisfy the predicate. -/
theorem takeWhile_mem_pred {p : Char → Bool} :
    ∀ {l : List Char} {c : Char}, c ∈ l.takeWhile p → p c = true := by
  intro l
  induction l with
  | nil =>
    intro c hc
    simp at hc
  | cons x xs ih =>
    intro c hc
    rw [List.takeWhile_cons] at hc
    by_cases hx : p x = true
    · simp only [hx, if_true] at hc
      rcases List.mem_cons.mp hc with hc | hc
      · subst hc
        exact hx
      · exact ih hc
    · simp only [Bool.not_eq_true] at hx
      simp [hx] at hc

/-- Dropping leading whitespace from whitespace followed by a
non-whitespace head leaves exactly the tail from that head. -/
theorem dropWhile_ws_cons (w1 : List Char) (x : Char) (t : List Char)
    (hw : ∀ c ∈ w1, isWsA c = true) (hx : isWsA x = false) :
    (w1 ++ x :: t).dropWhile isWsA = x :: t := by
  induction w1 with
  | nil => simp [List.dropWhile_cons, hx]
  | cons c cs ih =>
    have hc := hw c (by simp)
    rw [List.cons_append, List.dropWhile_cons, hc]
    simp only [if_true]
    exact ih (fun y hy => hw y (by simp [hy]))

/-- matchImg on whitespace followed by bang-bracket reduces to imgTail. -/
theorem matchImg_ws (w1 rest : List Char) (hw1 : ∀ c ∈ w1, isWsA c = true) :
    matchImg (w1 ++ '!' :: '[' :: rest) = imgTail rest := by
  unfold matchImg
  rw [dropWhile_ws_cons w1 '!' ('[' :: rest) hw1 (by decide)]
  simp

/-- matchTag on whitespace followed by an opening angle reduces to tagTail. -/
theorem matchTag_ws (w1 rest : List Char) (hw1 : ∀ c ∈ w1, isWsA c = true) :
    matchTag (w1 ++ '<' :: rest) = tagTail rest := by
  unfold matchTag
  rw [dropWhile_ws_cons w1 '<' rest hw1 (by decide)]
  simp

/-- The image-regex matcher recognizes exactly the declarative image shape. -/
theorem matchImg_iff (l : List Char) : matchImg l = true ↔ ImgShape l := by
  constructor
  · intro h
    unfold matchImg at h
    cases hdw : l.dropWhile isWsA with
    | nil =>
      rw [hdw] at h
      exact absurd h (by simp)
    | cons x rest1 =>
      cases rest1 with
      | nil =>
        rw [hdw] at h
        exact absurd h (by simp)
      | cons y rest =>
        rw [hdw] at h
        simp only [Bool.and_eq_true, decide_eq_true_eq] at h
        obtain ⟨⟨hx, hy⟩, htail⟩ := h
        obtain ⟨a, b, w2, heq, ha, hb, hw⟩ := (imgTail_iff rest).mp htail
        refine ⟨l.takeWhile isWsA, a, b, w2, ?_, ?_, ha, hb, hw⟩
        · conv_lhs => rw [← List.takeWhile_append_dropWhile (p := isWsA) (l := l)]
          rw [hdw, hx, hy, heq]
        · intro c hc
          exact takeWhile_mem_pred hc
  · rintro ⟨w1, a, b, w2, heq, hw1, ha, hb, hw⟩
    rw [heq, matchImg_ws w1 _ hw1]
    exact (imgTail_iff _).mpr ⟨a, b, w2, rfl, ha, hb, hw⟩

/-- The tag-regex matcher recognizes exactly the declarative tag shape. -/
theorem matchTag_iff (l : List Char) : matchTag l = true ↔ TagShape l := by
  constructor
  · intro h
    unfold matchTag at h
    cases hdw : l.dropWhile isWsA with
    | nil =>
      rw [hdw] at h
      exact absurd h (by simp)
    | cons x rest =>
      rw [hdw] at h
      simp only [Bool.and_eq_true, decide_eq_true_eq] at h
      obtain ⟨hx, htail⟩ := h
      obtain ⟨a, w2, heq, ha, hw⟩ := (tagTail_iff rest).mp htail
      refine ⟨l.takeWhile isWsA, a, w2, ?_, ?_, ha, hw⟩
      · conv_lhs => rw [← List.takeWhile_append_dropWhile (p := isWsA) (l := l)]
        rw [hdw, hx, heq]
      · intro c hc
        exact takeWhile_mem_pred hc
  · rintro ⟨w1, a, w2, heq, hw1, ha, hw⟩
    rw [heq, matchTag_ws w1 _ hw1]
    exact (tagTail_iff _).mpr ⟨a, w2, rfl, ha, hw⟩

/-- Counterexample to claim C8: the line with two markup tags around the
word bold is not solely one single markup tag, yet isSplLine classifies it
as structural, because the tag regex of defg.js line 281 allows anything -
including further angle brackets - between the opening and closing angle. -/
theorem C8_counterexample :
    isSplLine "<b>bold</b>" = true ∧ specIsSplLine "<b>bold</b>" = false := by
  constructor
  · decide
  · decide

/-- Claim C8 as amended: isSplLine returns true for a line exactly when,
between optional leading space-tab whitespace and optional trailing
space-tab-newline whitespace, the line is an image reference in
bracket-paren form (bang, bracket, any non-terminator characters, bracket,
paren, non-paren characters, paren), or the line starts with an opening
angle bracket and ends with a closing one (possibly spanning several
markup tags, not necessarily a single one); every other line is ordinary. -/
theorem C8_classifier (s : String) :
    isSplLine s = true ↔ ImgShape s.data ∨ TagShape s.data := by
  unfold isSplLine
  rw [Bool.or_eq_true, matchImg_iff, matchTag_iff]

/-- Witness for C8 at a concrete structural line. -/
theorem C8_witness : ImgShape " <a> ".data ∨ TagShape " <a> ".data :=
  (C8_classifier " <a> ").mp (by decide)

/-- Offset i of the lookahead window holds a match: the current data line d
reappears on the readme side, or the current readme line r reappears on
the data side (ds and rs include the current lines at offset zero). -/
def foundAt (d r : String) (ds rs : List String) (i : Nat) : Prop :=
  rs.get? i = some d ∨ ds.get? i = some r

instance foundAtDecidable (d r : String) (ds rs : List String) (i : Nat) :
    Decidable (foundAt d r ds rs i) :=
  decidable_of_iff (rs.get? i = some d ∨ ds.get? i = some r) Iff.rfl

/-- When no offset of the scanned range holds a match, the lookahead scan
reports none. -/
theorem lookFrom_none (d r : String) (ds rs : List String) :
    ∀ (steps k : Nat), (∀ i, k ≤ i → i < k + steps → ¬ foundAt d r ds rs i) →
      lookFrom d r ds rs k steps = none := by
  intro steps
  induction steps with
  | zero => intro k h; rfl
  | succ steps ih =>
    intro k h
    have hk : ¬ foundAt d r ds rs k := h k (by omega) (by omega)
    have h1 : ¬ (rs.get? k = some d) := fun hx => hk (Or.inl hx)
    have h2 : ¬ (ds.get? k = some r) := fun hx => hk (Or.inr hx)
    rw [lookFrom, if_neg h1, if_neg h2]
    exact ih (k + 1) (fun i hi1 hi2 => h i (by omega) (by omega))

/-- When the first matching offset of the scanned range matches on the
readme side, the lookahead scan reports it with the readme flag. -/
theorem lookFrom_found_ref (d r : String) (ds rs : List String) :
    ∀ (steps k i : Nat), k ≤ i → i < k + steps →
      rs.get? i = some d →
      (∀ j, k ≤ j → j < i → ¬ foundAt d r ds rs j) →
      lookFrom d r ds rs k steps = some (i, true) := by
  intro steps
  induction steps with
  | zero => intro k i h1 h2 _ _; omega
  | succ steps ih =>
    intro k i h1 h2 hr hj
    rcases Nat.eq_or_lt_of_le h1 with heq | hlt
    · subst heq
      rw [lookFrom, if_pos hr]
    · have hk : ¬ foundAt d r ds rs k := hj k (by omega) (by omega)
      have hk1 : ¬ (rs.get? k = some d) := fun hx => hk (Or.inl hx)
      have hk2 : ¬ (ds.get? k = some r) := fun hx => hk (Or.inr hx)
      rw [lookFrom, if_neg hk1, if_neg hk2]
      exact ih (k + 1) i (by omega) (by omega) hr (fun j hj1 hj2 => hj j (by omega) hj2)

/-- When the first matching offset of the scanned range matches only on the
data side, the lookahead scan reports it with the data flag. -/
theorem lookFrom_found_data (d r : String) (ds rs : List String) :
    ∀ (steps k i : Nat), k ≤ i → i < k + steps →
      ¬ (rs.get? i = some d) → ds.get? i = some r →
      (∀ j, k ≤ j → j < i → ¬ foundAt d r ds rs j) →
      lookFrom d r ds rs k steps = some (i, false) := by
  intro steps
  induction steps with
  | zero => intro k i h1 h2 _ _ _; omega
  | succ steps ih =>
    intro k i h1 h2 hnr hd hj
    rcases Nat.eq_or_lt_of_le h1 with heq | hlt
    · subst heq
      rw [lookFrom, if_neg hnr, if_pos hd]
    · have hk : ¬ foundAt d r ds rs k := hj k (by omega) (by omega)
      have hk1 : ¬ (rs.get? k = some d) := fun hx => hk (Or.inl hx)
      have hk2 : ¬ (ds.get? k = some r) := fun hx => hk (Or.inr hx)
      rw [lookFrom, if_neg hk1, if_neg hk2]
      exact ih (k + 1) i (by omega) (by omega) hnr hd (fun j hj1 hj2 => hj j (by omega) hj2)

/-- Claim C5: in the mismatch branch of the lockstep walk (both current
lines ordinary, non-empty, non-structural and different), if the first
offset i of the lookahead window (offsets 1 through 6, seven lines
counting the current one) has the current data line reappearing on the
readme side or the current readme line reappearing on the data side, the
distance grows by i and the cursor of the side holding the match advances
by i (the readme side winning when both match at the same offset); if no
offset of the window matches, the distance grows by exactly 2; in every
sub-case both cursors additionally advance by one, and the walk then
continues (or aborts when the new distance exceeds the known best). -/
theorem C5_mismatch_step (fuel : Nat) (out ds2 rs2 : List String) (d r : String)
    (dist : Nat) (bound : Option Nat)
    (hne : d ≠ r) (hd1 : d ≠ "") (hd2 : isSplLine d = false)
    (hr1 : r ≠ "") (hr2 : isSplLine r = false) :
    ((∀ i, i < 7 → 1 ≤ i → ¬ foundAt d r (d :: ds2) (r :: rs2) i) →
       alignLoopF (fuel + 1) out (d :: ds2) (r :: rs2) dist bound
         = if exceeds bound (dist + 2) then none
           else alignLoopF fuel (out ++ [d]) ds2 rs2 (dist + 2) bound)
    ∧ (∀ i, i < 7 → 1 ≤ i →
        (∀ j, 1 ≤ j → j < i → ¬ foundAt d r (d :: ds2) (r :: rs2) j) →
        ((r :: rs2).get? i = some d →
          alignLoopF (fuel + 1) out (d :: ds2) (r :: rs2) dist bound
            = if exceeds bound (dist + i) then none
              else alignLoopF fuel (out ++ [d]) ds2 ((r :: rs2).drop (i + 1)) (dist + i) bound)
        ∧ (¬ ((r :: rs2).get? i = some d) → (d :: ds2).get? i = some r →
          alignLoopF (fuel + 1) out (d :: ds2) (r :: rs2) dist bound
            = if exceeds bound (dist + i) then none
              else alignLoopF fuel (out ++ (d :: ds2).take (i + 1)) ((d :: ds2).drop (i + 1)) rs2 (dist + i) bound)) := by
  have hcd : ¬ (d = "" ∨ isSplLine d = true) := by
    rintro (h | h)
    · exact hd1 h
    · rw [hd2] at h
      exact absurd h (by simp)
  have hcr : ¬ (r = "" ∨ isSplLine r = true) := by
    rintro (h | h)
    · exact hr1 h
    · rw [hr2] at h
      exact absurd h (by simp)
  refine ⟨?_, ?_⟩
  · intro hnone
    have hlf : lookFrom d r (d :: ds2) (r :: rs2) 1 6 = none :=
      lookFrom_none d r (d :: ds2) (r :: rs2) 6 1
        (fun i hi1 hi2 => hnone i (by omega) (by omega))
    rw [alignLoopF, if_neg hne, if_neg hcd, if_neg hcr, hlf]
  · intro i hi7 hi1 hfirst
    constructor
    · intro hr
      have hlf : lookFrom d r (d :: ds2) (r :: rs2) 1 6 = some (i, true) :=
        lookFrom_found_ref d r (d :: ds2) (r :: rs2) 6 1 i (by omega) (by omega) hr
          (fun j hj1 hj2 => hfirst j hj1 hj2)
      rw [alignLoopF, if_neg hne, if_neg hcd, if_neg hcr, hlf]
    · intro hnr hd
      have hlf : lookFrom d r (d :: ds2) (r :: rs2) 1 6 = some (i, false) :=
        lookFrom_found_data d r (d :: ds2) (r :: rs2) 6 1 i (by omega) (by omega) hnr hd
          (fun j hj1 hj2 => hfirst j hj1 hj2)
      rw [alignLoopF, if_neg hne, if_neg hcd, if_neg hcr, hlf]

/-- Witness for C5: a mismatch of two ordinary one-line sides with no
lookahead match adds exactly 2 and advances both cursors. -/
theorem C5_witness :
    alignLoopF 1 [] ["p"] ["q"] 0 none
      = if exceeds none (0 + 2) then none
        else alignLoopF 0 ([] ++ ["p"]) [] [] (0 + 2) none :=
  (C5_mismatch_step 0 [] [] [] "p" "q" 0 none (by decide) (by decide) (by decide)
      (by decide) (by decide)).1 (by decide)

/-- The walk only ever inserts readme lines into the data array (splice at
defg.js line 247): whenever a run completes, the initial data suffix -
prefixed by anything already processed - survives in order inside the
resulting merged data. -/
theorem alignLoopF_sublist :
    ∀ (fuel : Nat) (out ds rs : List String) (dist : Nat) (bound : Option Nat)
      (dd : Nat) (m : List String),
      alignLoopF fuel out ds rs dist bound = some (dd, m) → (out ++ ds).Sublist m := by
  intro fuel
  induction fuel with
  | zero =>
    intro out ds rs dist bound dd m h
    cases ds with
    | nil =>
      simp only [alignLoopF] at h
      cases h
      simp
    | cons d ds2 =>
      cases rs with
      | nil =>
        simp only [alignLoopF] at h
        cases h
        exact List.Sublist.refl _
      | cons r rs2 =>
        simp only [alignLoopF] at h
        cases h
        exact List.Sublist.refl _
  | succ fuel ih =>
    intro out ds rs dist bound dd m h
    cases ds with
    | nil =>
      simp only [alignLoopF] at h
      cases h
      simp
    | cons d ds2 =>
      cases rs with
      | nil =>
        simp only [alignLoopF] at h
        cases h
        exact List.Sublist.refl _
      | cons r rs2 =>
        simp only [alignLoopF] at h
        by_cases h1 : d = r
        · rw [if_pos h1] at h
          have h2 := ih _ _ _ _ _ _ _ h
          rwa [List.append_assoc, List.singleton_append] at h2
        · rw [if_neg h1] at h
          by_cases h2 : d = "" ∨ isSplLine d = true
          · rw [if_pos h2] at h
            have h3 := ih _ _ _ _ _ _ _ h
            rwa [List.append_assoc, List.singleton_append] at h3
          · rw [if_neg h2] at h
            by_cases h3 : r = "" ∨ isSplLine r = true
            · rw [if_pos h3] at h
              have h4 := ih _ _ _ _ _ _ _ h
              rw [List.append_assoc, List.singleton_append] at h4
              exact List.Sublist.trans
                (List.Sublist.append_left (List.Sublist.cons r (List.Sublist.refl _)) out) h4
            · rw [if_neg h3] at h
              split at h
              · split at h
                · cases h
                · have h4 := ih _ _ _ _ _ _ _ h
                  rwa [List.append_assoc, List.singleton_append] at h4
              · split at h
                · cases h
                · have h4 := ih _ _ _ _ _ _ _ h
                  rwa [List.append_assoc, List.take_append_drop] at h4
              · split at h
                · cases h
                · have h4 := ih _ _ _ _ _ _ _ h
                  rwa [List.append_assoc, List.singleton_append] at h4

/-- Completing a bounded run keeps the final distance within the bound
(unless the distance never moved from its initial value): after every
distance increase the early-abort test of defg.js line 272 runs, so a
completed walk can never have exceeded min.dist. -/
theorem alignLoopF_le_bound :
    ∀ (fuel : Nat) (out ds rs : List String) (dist b : Nat)
      (dd : Nat) (m : List String),
      alignLoopF fuel out ds rs dist (some b) = some (dd, m) → dd ≤ b ∨ dd = dist := by
  intro fuel
  induction fuel with
  | zero =>
    intro out ds rs dist b dd m h
    cases ds with
    | nil =>
      simp only [alignLoopF] at h
      cases h
      exact Or.inr rfl
    | cons d ds2 =>
      cases rs with
      | nil =>
        simp only [alignLoopF] at h
        cases h
        exact Or.inr rfl
      | cons r rs2 =>
        simp only [alignLoopF] at h
        cases h
        exact Or.inr rfl
  | succ fuel ih =>
    intro out ds rs dist b dd m h
    cases ds with
    | nil =>
      simp only [alignLoopF] at h
      cases h
      exact Or.inr rfl
    | cons d ds2 =>
      cases rs with
      | nil =>
        simp only [alignLoopF] at h
        cases h
        exact Or.inr rfl
      | cons r rs2 =>
        simp only [alignLoopF] at h
        by_cases h1 : d = r
        · rw [if_pos h1] at h
          exact ih _ _ _ _ _ _ _ h
        · rw [if_neg h1] at h
          by_cases h2 : d = "" ∨ isSplLine d = true
          · rw [if_pos h2] at h
            exact ih _ _ _ _ _ _ _ h
          · rw [if_neg h2] at h
            by_cases h3 : r = "" ∨ isSplLine r = true
            · rw [if_pos h3] at h
              exact ih _ _ _ _ _ _ _ h
            · rw [if_neg h3] at h
              split at h
              · split at h
                · cases h
                · rename_i i side hex
                  have hle : dist + i ≤ b := by
                    by_contra hgt
                    exact hex (by simp [exceeds]; omega)
                  rcases ih _ _ _ _ _ _ _ h with h4 | h4
                  · exact Or.inl h4
                  · exact Or.inl (by omega)
              · split at h
                · cases h
                · rename_i i side hex
                  have hle : dist + i ≤ b := by
                    by_contra hgt
                    exact hex (by simp [exceeds]; omega)
                  rcases ih _ _ _ _ _ _ _ h with h4 | h4
                  · exact Or.inl h4
                  · exact Or.inl (by omega)
              · split at h
                · cases h
                · rename_i hex
                  have hle : dist + 2 ≤ b := by
                    by_contra hgt
                    exact hex (by simp [exceeds]; omega)
                  rcases ih _ _ _ _ _ _ _ h with h4 | h4
                  · exact Or.inl h4
                  · exact Or.inl (by omega)

/-- With no best-so-far (min.dist null) the early-abort test never fires. -/
theorem exceeds_none (x : Nat) : exceeds none x = false := rfl

/-- An unbounded run never loses distance, and a bounded run of the same
configuration completes with the same result exactly when the true final
distance fits the bound, aborting otherwise: the early abort is driven by
the monotone accumulated distance alone. -/
theorem alignLoopF_bounded :
    ∀ (fuel : Nat) (out ds rs : List String) (dist : Nat) (dd : Nat) (m : List String),
      alignLoopF fuel out ds rs dist none = some (dd, m) →
      dist ≤ dd ∧ ∀ b, dist ≤ b →
        alignLoopF fuel out ds rs dist (some b) = if dd ≤ b then some (dd, m) else none := by
  intro fuel
  induction fuel with
  | zero =>
    intro out ds rs dist dd m h
    cases ds with
    | nil =>
      simp only [alignLoopF] at h
      cases h
      refine ⟨Nat.le_refl _, fun b hb => ?_⟩
      simp only [alignLoopF]
      rw [if_pos hb]
    | cons d ds2 =>
      cases rs with
      | nil =>
        simp only [alignLoopF] at h
        cases h
        refine ⟨Nat.le_refl _, fun b hb => ?_⟩
        simp only [alignLoopF]
        rw [if_pos hb]
      | cons r rs2 =>
        simp only [alignLoopF] at h
        cases h
        refine ⟨Nat.le_refl _, fun b hb => ?_⟩
        simp only [alignLoopF]
        rw [if_pos hb]
  | succ fuel ih =>
    intro out ds rs dist dd m h
    cases ds with
    | nil =>
      simp only [alignLoopF] at h
      cases h
      refine ⟨Nat.le_refl _, fun b hb => ?_⟩
      simp only [alignLoopF]
      rw [if_pos hb]
    | cons d ds2 =>
      cases rs with
      | nil =>
        simp only [alignLoopF] at h
        cases h
        refine ⟨Nat.le_refl _, fun b hb => ?_⟩
        simp only [alignLoopF]
        rw [if_pos hb]
      | cons r rs2 =>
        simp only [alignLoopF] at h
        by_cases h1 : d = r
        · rw [if_pos h1] at h
          obtain ⟨hle, hbf⟩ := ih _ _ _ _ _ _ h
          refine ⟨hle, fun b hb => ?_⟩
          simp only [alignLoopF]
          rw [if_pos h1]
          exact hbf b hb
        · rw [if_neg h1] at h
          by_cases h2 : d = "" ∨ isSplLine d = true
          · rw [if_pos h2] at h
            obtain ⟨hle, hbf⟩ := ih _ _ _ _ _ _ h
            refine ⟨hle, fun b hb => ?_⟩
            simp only [alignLoopF]
            rw [if_neg h1, if_pos h2]
            exact hbf b hb
          · rw [if_neg h2] at h
            by_cases h3 : r = "" ∨ isSplLine r = true
            · rw [if_pos h3] at h
              obtain ⟨hle, hbf⟩ := ih _ _ _ _ _ _ h
              refine ⟨hle, fun b hb => ?_⟩
              simp only [alignLoopF]
              rw [if_neg h1, if_neg h2, if_pos h3]
              exact hbf b hb
            · rw [if_neg h3] at h
              cases hlf : lookFrom d r (d :: ds2) (r :: rs2) 1 6 with
              | none =>
                rw [hlf] at h
                dsimp only at h
                rw [exceeds_none, if_neg (by simp)] at h
                obtain ⟨hle, hbf⟩ := ih _ _ _ _ _ _ h
                refine ⟨by omega, fun b hb => ?_⟩
                simp only [alignLoopF]
                rw [if_neg h1, if_neg h2, if_neg h3, hlf]
                dsimp only
                by_cases hb2 : b < dist + 2
                · rw [if_pos (by simp [exceeds]; omega)]
                  rw [if_neg (by omega)]
                · rw [if_neg (by simp [exceeds]; omega)]
                  exact hbf b (by omega)
              | some p =>
                obtain ⟨i, side⟩ := p
                rw [hlf] at h
                cases side with
                | true =>
                  dsimp only at h
                  rw [exceeds_none, if_neg (by simp)] at h
                  obtain ⟨hle, hbf⟩ := ih _ _ _ _ _ _ h
                  refine ⟨by omega, fun b hb => ?_⟩
                  simp only [alignLoopF]
                  rw [if_neg h1, if_neg h2, if_neg h3, hlf]
                  dsimp only
                  by_cases hb2 : b < dist + i
                  · rw [if_pos (by simp [exceeds]; omega)]
                    rw [if_neg (by omega)]
                  · rw [if_neg (by simp [exceeds]; omega)]
                    exact hbf b (by omega)
                | false =>
                  dsimp only at h
                  rw [exceeds_none, if_neg (by simp)] at h
                  obtain ⟨hle, hbf⟩ := ih _ _ _ _ _ _ h
                  refine ⟨by omega, fun b hb => ?_⟩
                  simp only [alignLoopF]
                  rw [if_neg h1, if_neg h2, if_neg h3, hlf]
                  dsimp only
                  by_cases hb2 : b < dist + i
                  · rw [if_pos (by simp [exceeds]; omega)]
                    rw [if_neg (by omega)]
                  · rw [if_neg (by simp [exceeds]; omega)]
                    exact hbf b (by omega)

/-- Walking a candidate against an identical readme matches at every step:
no distance accrues, nothing is inserted, and no abort can fire. -/
theorem alignLoopF_self (l : List String) :
    ∀ (fuel : Nat) (out : List String) (dist : Nat) (bound : Option Nat),
      l.length ≤ fuel →
      alignLoopF fuel out l l dist bound = some (dist, out ++ l) := by
  induction l with
  | nil =>
    intro fuel out dist bound hf
    simp only [alignLoopF]
    simp
  | cons x xs ih =>
    intro fuel out dist bound hf
    cases fuel with
    | zero => simp at hf
    | succ fuel =>
      simp only [alignLoopF]
      rw [if_pos trivial]
      rw [ih fuel (out ++ [x]) dist bound (by simpa using hf)]
      rw [List.append_assoc, List.singleton_append]

/-- A scoring run that aborts leaves the search state unchanged
(defg.js line 272 returns without touching min). -/
theorem find_min_1_of_abort (flat rlines : List String) (mn : Option (Nat × List String))
    (h : alignRun flat rlines (mn.map (fun p => p.1)) = none) :
    find_min_1 flat rlines mn = mn := by
  unfold find_min_1
  rw [h]

/-- A scoring run that completes overwrites the search state with its
result (defg.js lines 274-276), even on an equal distance. -/
theorem find_min_1_of_complete (flat rlines : List String) (mn : Option (Nat × List String))
    (res : Nat × List String)
    (h : alignRun flat rlines (mn.map (fun p => p.1)) = some res) :
    find_min_1 flat rlines mn = some res := by
  unfold find_min_1
  rw [h]

/-- A full bounded scoring run completes with its true distance and merged
data when that distance fits the bound, and aborts otherwise. -/
theorem alignRun_bounded (ds rs : List String) (dd : Nat) (m : List String)
    (h : alignRun ds rs none = some (dd, m)) (b : Nat) :
    alignRun ds rs (some b) = if dd ≤ b then some (dd, m) else none := by
  have h2 := alignLoopF_bounded (ds.length + rs.length) [] ds rs 0 dd m h
  exact h2.2 b (Nat.zero_le b)

/-- A full bounded scoring run that completes never exceeds its bound. -/
theorem alignRun_le (ds rs : List String) (b dd : Nat) (m : List String)
    (h : alignRun ds rs (some b) = some (dd, m)) : dd ≤ b := by
  rcases alignLoopF_le_bound (ds.length + rs.length) [] ds rs 0 b dd m h with h1 | h1
  · exact h1
  · omega

/-- Claim C6 (pruning safety): for two complete orderings A and B with true
alignment distances dA strictly below dB, the search with early-abort
scoring selects A - its distance and merged data - and never prefers B,
whichever of the two evaluation orders is used. -/
theorem C6_pruning_safety (rlines A B : List String) (dA dB : Nat)
    (datA datB : List String)
    (hA : alignRun A rlines none = some (dA, datA))
    (hB : alignRun B rlines none = some (dB, datB))
    (hlt : dA < dB) :
    searchFold [A, B] rlines = some (dA, datA)
      ∧ searchFold [B, A] rlines = some (dA, datA) := by
  have sA : find_min_1 A rlines none = some (dA, datA) :=
    find_min_1_of_complete A rlines none (dA, datA) hA
  have sB : find_min_1 B rlines none = some (dB, datB) :=
    find_min_1_of_complete B rlines none (dB, datB) hB
  have hrB : alignRun B rlines (some dA) = none := by
    rw [alignRun_bounded B rlines dB datB hB dA]
    rw [if_neg (by omega)]
  have hrA : alignRun A rlines (some dB) = some (dA, datA) := by
    rw [alignRun_bounded A rlines dA datA hA dB]
    rw [if_pos (by omega)]
  constructor
  · show List.foldl (fun mn c => find_min_1 c rlines mn) none [A, B] = some (dA, datA)
    simp only [List.foldl_cons, List.foldl_nil]
    rw [sA]
    exact find_min_1_of_abort B rlines (some (dA, datA)) hrB
  · show List.foldl (fun mn c => find_min_1 c rlines mn) none [B, A] = some (dA, datA)
    simp only [List.foldl_cons, List.foldl_nil]
    rw [sB]
    exact find_min_1_of_complete A rlines (some (dB, datB)) (dA, datA) hrA

/-- Witness for C6 at concrete one-line candidates with distances 0 and 2. -/
theorem C6_witness :
    searchFold [["a"], ["b"]] ["a"] = some (0, ["a"])
      ∧ searchFold [["b"], ["a"]] ["a"] = some (0, ["a"]) :=
  C6_pruning_safety ["a"] ["a"] ["b"] 0 2 ["a"] ["b"] (by decide) (by decide) (by decide)

/-- Claim C3 as amended: ties keep the last-found best.  Whenever a
candidate's scoring completes against the incumbent best distance, its
distance is at most that bound and it overwrites the incumbent (defg.js
lines 274-276 assign min unconditionally after the loop) - including when
the distances are equal, so among equally minimal orderings the one found
last in block-index search order supplies the returned trace. -/
theorem C3_last_tie_wins (flat rlines : List String) (b : Nat) (dat : List String)
    (d : Nat) (dat2 : List String)
    (h : alignRun flat rlines (some b) = some (d, dat2)) :
    d ≤ b ∧ find_min_1 flat rlines (some (b, dat)) = some (d, dat2) :=
  ⟨alignRun_le flat rlines b d dat2 h,
   find_min_1_of_complete flat rlines (some (b, dat)) (d, dat2) h⟩

/-- Counterexample to claim C3: for blocks a, angle-x, b against a readme
holding exactly those three lines, the first-found ordering (the identity,
generated first in block-index order) already achieves the minimal
distance 0 with its own trace, yet the search returns a different trace -
from a later ordering that also scored 0 and overwrote the tie. -/
theorem C3_counterexample :
    regenMin [["a"], ["<x>"], ["b"]] ["a", "<x>", "b"]
        = some (0, ["<x>", "a", "<x>", "b"])
      ∧ alignRun (List.flatten [["a"], ["<x>"], ["b"]]) ["a", "<x>", "b"] none
        = some (0, ["a", "<x>", "b"])
      ∧ (["<x>", "a", "<x>", "b"] : List String) ≠ ["a", "<x>", "b"] :=
  ⟨by decide, by decide, by decide⟩

/-- Witness for C3: a second candidate scoring an equal distance 0
overwrites the incumbent (0, x) with its own trace. -/
theorem C3_witness :
    (0 : Nat) ≤ 0 ∧ find_min_1 ["a"] ["a"] (some (0, ["x"])) = some (0, ["a"]) :=
  C3_last_tie_wins ["a"] ["a"] 0 ["x"] 0 ["a"] (by decide)

/-- An element of pick is one list member paired with the rest in order. -/
theorem pick_perm {α : Type} :
    ∀ (l : List α) (p : α × List α), p ∈ pick l →
      (p.1 :: p.2).Perm l ∧ p.2.length + 1 = l.length := by
  intro l
  induction l with
  | nil =>
    intro p hp
    simp [pick] at hp
  | cons x xs ih =>
    intro p hp
    simp only [pick, List.mem_cons, List.mem_map] at hp
    rcases hp with hp | ⟨q, hq, hq2⟩
    · subst hp
      exact ⟨List.Perm.refl _, by simp⟩
    · obtain ⟨hperm, hlen⟩ := ih q hq
      subst hq2
      constructor
      · exact List.Perm.trans (List.Perm.swap x q.1 q.2) (List.Perm.cons x hperm)
      · simp only [List.length_cons]
        omega

/-- Every list generated by the permutation generator is a permutation of
the input blocks. -/
theorem permsF_perm {α : Type} :
    ∀ (fuel : Nat) (l : List α), l.length = fuel → ∀ p ∈ permsF fuel l, p.Perm l := by
  intro fuel
  induction fuel with
  | zero =>
    intro l hl p hp
    cases l with
    | nil =>
      simp only [permsF, List.mem_singleton] at hp
      subst hp
      exact List.Perm.refl _
    | cons x xs => simp at hl
  | succ fuel ih =>
    intro l hl p hp
    cases l with
    | nil => simp at hl
    | cons x xs =>
      simp only [permsF, List.mem_flatMap, List.mem_map] at hp
      obtain ⟨q, hq, r, hr, hr2⟩ := hp
      obtain ⟨hperm, hlen⟩ := pick_perm (x :: xs) q hq
      have hql : q.2.length = fuel := by
        simp only [List.length_cons] at hlen hl
        omega
      have hrperm : r.Perm q.2 := ih q.2 hql r hr
      subst hr2
      exact List.Perm.trans (List.Perm.cons q.1 hrperm) hperm

/-- Elements of perms are permutations of the blocks. -/
theorem perms_perm {α : Type} (l p : List α) (hp : p ∈ perms l) : p.Perm l :=
  permsF_perm l.length l rfl p hp

/-- A member block survives in order inside the flattened ordering. -/
theorem mem_flatten_sublist (b : List String) :
    ∀ (p : List (List String)), b ∈ p → b.Sublist p.flatten := by
  intro p
  induction p with
  | nil =>
    intro hb
    simp at hb
  | cons c p2 ih =>
    intro hb
    rcases List.mem_cons.mp hb with hb | hb
    · subst hb
      simp only [List.flatten_cons]
      exact List.sublist_append_left _ _
    · simp only [List.flatten_cons]
      exact List.Sublist.trans (ih hb) (List.sublist_append_right _ _)

/-- Any winning state of the fold was produced by scoring some candidate
of the list (or was the initial state). -/
theorem searchFold_origin :
    ∀ (cands : List (List String)) (rlines : List String)
      (mn : Option (Nat × List String)) (res : Nat × List String),
      List.foldl (fun mn c => find_min_1 c rlines mn) mn cands = some res →
      mn = some res ∨ ∃ c ∈ cands, ∃ bnd, alignRun c rlines bnd = some res := by
  intro cands
  induction cands with
  | nil =>
    intro rlines mn res h
    simp only [List.foldl_nil] at h
    exact Or.inl h
  | cons c cs ih =>
    intro rlines mn res h
    simp only [List.foldl_cons] at h
    rcases ih rlines (find_min_1 c rlines mn) res h with h1 | ⟨c2, hc2, bnd, hb⟩
    · unfold find_min_1 at h1
      cases ha : alignRun c rlines (mn.map (fun p => p.1)) with
      | none =>
        rw [ha] at h1
        exact Or.inl h1
      | some r2 =>
        rw [ha] at h1
        cases h1
        exact Or.inr ⟨c, by simp, _, ha⟩
    · exact Or.inr ⟨c2, by simp [hc2], bnd, hb⟩

/-- Counterexample to claim C1: the extracted line holding a leading space
survives the search and the diff merge, but the final trim of defg.js
lines 206 and 456 strips its whitespace, so the line never appears
verbatim in the persisted sequence. -/
theorem C1_counterexample :
    regen_readme "x" [[" a"]] = some "a" ∧ ¬ (" a" ∈ splitNl "a") :=
  ⟨by decide, by decide⟩

/-- Claim C1 as amended: every line of every extracted DocBlock appears,
in its original intra-block order, in the merged data the search returns
(min.data), before that data is joined and trimmed; the final trim of the
persisted text can still drop or alter whitespace at the very boundaries
of the document, so whitespace-only or whitespace-padded boundary lines
need not survive verbatim. -/
theorem C1_no_line_dropped (docblocks : List (List String)) (rlines : List String)
    (d : Nat) (dat : List String)
    (h : regenMin docblocks rlines = some (d, dat)) :
    ∀ b ∈ docblocks, b.Sublist dat := by
  intro b hb
  unfold regenMin searchFold at h
  rcases searchFold_origin _ rlines none (d, dat) h with h1 | ⟨c, hc, bnd, hrun⟩
  · exact absurd h1 (by simp)
  · obtain ⟨p, hp, hflat⟩ := List.mem_map.mp hc
    have hperm := perms_perm docblocks p hp
    have hbp : b ∈ p := (hperm.mem_iff).mpr hb
    have hsub1 : b.Sublist p.flatten := mem_flatten_sublist b p hbp
    have hsub2 : c.Sublist dat := by
      have h2 := alignLoopF_sublist (c.length + rlines.length) [] c rlines 0 bnd d dat hrun
      rwa [List.nil_append] at h2
    rw [← hflat] at hsub2
    exact hsub1.trans hsub2

/-- Witness for C1 at the concrete winning trace of the tie example. -/
theorem C1_witness : List.Sublist ["b"] ["<x>", "a", "<x>", "b"] :=
  C1_no_line_dropped [["a"], ["<x>"], ["b"]] ["a", "<x>", "b"] 0
    ["<x>", "a", "<x>", "b"] (by decide) ["b"] (by decide)

/-- Folding further candidates from a distance-0 state keeps a distance-0
state: an abort keeps the incumbent, and any completion against bound 0
must itself have distance 0. -/
theorem searchFold_keep_zero :
    ∀ (l2 : List (List String)) (rlines dat : List String),
      ∃ dat2, List.foldl (fun mn c => find_min_1 c rlines mn)
          (some ((0 : Nat), dat)) l2 = some (0, dat2) := by
  intro l2
  induction l2 with
  | nil =>
    intro rlines dat
    exact ⟨dat, rfl⟩
  | cons c cs ih =>
    intro rlines dat
    simp only [List.foldl_cons]
    cases ha : alignRun c rlines ((some ((0 : Nat), dat)).map (fun p => p.1)) with
    | none =>
      rw [find_min_1_of_abort c rlines (some (0, dat)) ha]
      exact ih rlines dat
    | some r2 =>
      obtain ⟨d2, dat2⟩ := r2
      have h0 : d2 = 0 := Nat.le_zero.mp (alignRun_le c rlines 0 d2 dat2 ha)
      subst h0
      rw [find_min_1_of_complete c rlines (some (0, dat)) (0, dat2) ha]
      exact ih rlines dat2

/-- Claim C7 as amended: if the document lines already equal some
ordering's flattened blocks exactly, the search does find 0 as the final
best distance (the exact candidate completes at cost 0, and everything
completing afterwards must also cost 0); but the returned merged data need
not equal the document - a different ordering can also reach distance 0
through free skips and insertions of empty or structural lines and, ties
keeping the last-found trace, the persisted output can then differ from
the input document, so idempotence fails in general. -/
theorem C7_distance_zero (blocks : List (List String)) (rlines : List String)
    (h : ∃ p, p ∈ perms blocks ∧ p.flatten = rlines) :
    ∃ dat, regenMin blocks rlines = some (0, dat) := by
  obtain ⟨p, hp, hflat⟩ := h
  have hmem : rlines ∈ (perms blocks).map (fun q => q.flatten) :=
    List.mem_map.mpr ⟨p, hp, hflat⟩
  obtain ⟨l1, l2, hsplit⟩ := List.append_of_mem hmem
  unfold regenMin searchFold
  rw [hsplit, List.foldl_append]
  simp only [List.foldl_cons]
  have hself : alignRun rlines rlines
      ((List.foldl (fun mn c => find_min_1 c rlines mn) none l1).map (fun p => p.1))
        = some (0, rlines) := by
    unfold alignRun
    have h2 := alignLoopF_self rlines (rlines.length + rlines.length) [] 0
      ((List.foldl (fun mn c => find_min_1 c rlines mn) none l1).map (fun p => p.1))
      (by omega)
    rwa [List.nil_append] at h2
  rw [find_min_1_of_complete rlines rlines _ (0, rlines) hself]
  exact searchFold_keep_zero l2 rlines rlines

/-- Counterexample to claim C7: the readme a, angle-x, b equals the
identity ordering's flattened blocks, yet the persisted output differs
from the input document - a later ordering also scored 0 and its trace,
holding a duplicated structural line, won the tie. -/
theorem C7_counterexample :
    List.flatten [["a"], ["<x>"], ["b"]] = splitNl "a\n<x>\nb"
      ∧ [["a"], ["<x>"], ["b"]] ∈ perms [["a"], ["<x>"], ["b"]]
      ∧ regen_readme "a\n<x>\nb" [["a"], ["<x>"], ["b"]] = some "<x>\na\n<x>\nb"
      ∧ ("<x>\na\n<x>\nb" : String) ≠ "a\n<x>\nb" :=
  ⟨by decide, by decide, by decide, by decide⟩

/-- Witness for C7 with a single block equal to the document. -/
theorem C7_witness : ∃ dat, regenMin [["a"]] ["a"] = some (0, dat) :=
  C7_distance_zero [["a"]] ["a"] ⟨[["a"]], by decide, by decide⟩

/-- Counterexample to claim C4: the old document's image line sits beyond
the point where the candidate data is exhausted, so the lockstep walk ends
(defg.js line 233) before reaching it, it is never inserted, and the diff
merge drops it from the persisted output. -/
theorem C4_counterexample :
    regen_readme "intro\n![x](y.png)" [["intro"]] = some "intro"
      ∧ ¬ ("![x](y.png)" ∈ splitNl "intro") :=
  ⟨by decide, by decide⟩

/-- Claim C4 as amended: a structural (or empty) old-document line is
preserved in the merged data whenever the lockstep walk reaches it while
the candidate side still has a current ordinary non-matching line - the
insert branch of defg.js lines 245-250 splices it in and it survives to
the final data; and on the spec's example (old document intro, image,
outro with blocks intro and outro) the image is preserved between intro
and outro in the persisted output.  Preservation is not universal:
structural lines beyond the walk's exhaustion point (see the
counterexample), or skipped over by a lookahead advance, are dropped. -/
theorem C4_structural_preserved :
    (∀ (fuel : Nat) (out ds2 rs2 : List String) (d r : String) (dist : Nat)
        (bound : Option Nat) (dd : Nat) (dat : List String),
      alignLoopF (fuel + 1) out (d :: ds2) (r :: rs2) dist bound = some (dd, dat) →
      d ≠ r → ¬ (d = "" ∨ isSplLine d = true) → (r = "" ∨ isSplLine r = true) →
      r ∈ dat)
    ∧ regen_readme "intro\n![x](y.png)\noutro" [["intro"], ["outro"]]
        = some "intro\n![x](y.png)\noutro" := by
  constructor
  · intro fuel out ds2 rs2 d r dist bound dd dat h h1 h2 h3
    simp only [alignLoopF] at h
    rw [if_neg h1, if_neg h2, if_pos h3] at h
    have h4 := alignLoopF_sublist _ _ _ _ _ _ _ _ h
    exact h4.subset (by simp)
  · decide

/-- Witness for C4: inserting a structural readme line ahead of an
ordinary candidate line lands it in the merged data. -/
theorem C4_witness : "<x>" ∈ ["<x>", "a"] :=
  C4_structural_preserved.1 0 [] [] [] "a" "<x>" 0 none 0 ["<x>", "a"]
    (by decide) (by decide) (by decide) (by decide)
